import Mathlib

/-!
# Verification of the traq session segmentation and duplicate-detection pipeline

Shallow embedding of the algorithmic core of the `traq` activity tracker:

* `src/tracker/capture.py` — perceptual dhash generation and hash comparison
  (`ScreenCapture._generate_dhash`, `ScreenCapture.compare_hashes`);
* `src/tracker/daemon.py` — duplicate decision on the capture loop
  (`ActivityDaemon._hamming_distance`, `ActivityDaemon._should_skip_screenshot`);
* `src/tracker/sessions.py` — session lifecycle (`SessionManager`);
* `src/scripts/merge_fragmented_sessions.py` — the offline session repairer
  (`find_fragmented_pairs_with_threshold`, `build_merge_chains`, `merge_chain`).

Machine integers are modelled as `Nat`/`Int` (Python integers are unbounded),
timestamps as integer seconds, SQL rows as Lean structures and tables as lists.
Fallible Python code (raised exceptions) is modelled with `Option`/`Except`.
-/

namespace Traq

/-! ## Hex strings and population count

Python's `f"{v:x}"` formatting, `int(s, 16)` parsing and `bin(x).count('1')`.
All functions are structurally recursive so that concrete instances evaluate
by `decide`. -/

/-- Value of one hexadecimal digit, `none` when the character is not a hex
digit (where Python's `int(s, 16)` raises `ValueError`). -/
def hexDigitVal (c : Char) : Option Nat :=
  if '0' ≤ c ∧ c ≤ '9' then some (c.toNat - '0'.toNat)
  else if 'a' ≤ c ∧ c ≤ 'f' then some (c.toNat - 'a'.toNat + 10)
  else if 'A' ≤ c ∧ c ≤ 'F' then some (c.toNat - 'A'.toNat + 10)
  else none

/-- A non-empty string of hex digits: exactly the strings accepted by
Python's `int(s, 16)` as produced by the hashing code. -/
def isHexString (s : String) : Prop :=
  s.data ≠ [] ∧ ∀ c ∈ s.data, (hexDigitVal c).isSome

instance (s : String) : Decidable (isHexString s) := by
  unfold isHexString; infer_instance

/-- `int(s, 16)`: `none` models the `ValueError` raised on a malformed or
empty string. -/
def parseHex (s : String) : Option Nat :=
  if s.data = [] then none
  else s.data.foldl (fun acc c => acc.bind fun n => (hexDigitVal c).map fun d => 16 * n + d)
    (some 0)

/-- `bin(n).count('1')`: number of set bits, via fuel-bounded binary
recursion (`fuel ≥ n` suffices, each step halves `n`). -/
def popcountAux : Nat → Nat → Nat
  | 0, _ => 0
  | f + 1, n => if n = 0 then 0 else n % 2 + popcountAux f (n / 2)

theorem popcountAux_succ (f n : Nat) :
    popcountAux (f + 1) n = if n = 0 then 0 else n % 2 + popcountAux f (n / 2) := rfl

/-- `bin(n).count('1')`. -/
def popcount (n : Nat) : Nat := popcountAux (n + 1) n

/-- Hex digit character used by Python's `x` format (lowercase). -/
def hexDigitChar (d : Nat) : Char :=
  if d = 0 then '0' else if d = 1 then '1' else if d = 2 then '2'
  else if d = 3 then '3' else if d = 4 then '4' else if d = 5 then '5'
  else if d = 6 then '6' else if d = 7 then '7' else if d = 8 then '8'
  else if d = 9 then '9' else if d = 10 then 'a' else if d = 11 then 'b'
  else if d = 12 then 'c' else if d = 13 then 'd' else if d = 14 then 'e'
  else 'f'

/-- Big-endian hex digits of `n`; `fuel`-bounded recursion, `fuel ≥ 1` and
`fuel ≥` the digit count suffice (each step divides by 16). -/
def toHexDigits : Nat → Nat → List Char
  | 0, _ => []
  | f + 1, n => if n < 16 then [hexDigitChar n] else toHexDigits f (n / 16) ++ [hexDigitChar (n % 16)]

theorem toHexDigits_succ (f n : Nat) :
    toHexDigits (f + 1) n =
      if n < 16 then [hexDigitChar n]
      else toHexDigits f (n / 16) ++ [hexDigitChar (n % 16)] := rfl

/-- Python's `f"{n:x}"`: lowercase hex representation, `"0"` for zero. -/
def hexRepr (n : Nat) : List Char := toHexDigits (n + 1) n

/-- Python's `f"{n:016x}"`: hex representation left-padded with `'0'` to a
MINIMUM width of 16 characters (longer values are not truncated). -/
def format016x (n : Nat) : String :=
  ⟨List.replicate (16 - (hexRepr n).length) '0' ++ hexRepr n⟩

end Traq

namespace Traq

/-! ## `ScreenCapture._generate_dhash` (src/tracker/capture.py)

The resize-to-`(hash_size+1) × hash_size` greyscale step is the image I/O
collaborator (PIL); the embedding starts from the resulting pixel list
`pixels = list(img.getdata())`, row-major, `(hash_size+1)*hash_size` entries.
Out-of-range reads (impossible for well-sized input) default to 0. -/

/-- The horizontal-gradient difference bits: for each of `hash_size` rows and
`hash_size` columns, bit = (left pixel > right pixel), row-major. -/
def dhashBits (pixels : List Nat) (hash_size : Nat) : List Bool :=
  ((List.range hash_size).map fun row =>
    (List.range hash_size).map fun col =>
      decide (pixels.getD (row * (hash_size + 1) + col) 0 >
              pixels.getD (row * (hash_size + 1) + col + 1) 0)).flatten

/-- `decimal_value |= (1 << i)` accumulation: bit `i` of the list contributes
`2^i`. -/
def bitsToNat : List Bool → Nat
  | [] => 0
  | b :: rest => (if b then 1 else 0) + 2 * bitsToNat rest

/-- `ScreenCapture._generate_dhash` from the pixel data on: difference bits,
packed into an integer, rendered with `f"{decimal_value:016x}"`. -/
def generate_dhash (pixels : List Nat) (hash_size : Nat) : String :=
  format016x (bitsToNat (dhashBits pixels hash_size))

/-! ## `ScreenCapture.compare_hashes` (src/tracker/capture.py) -/

/-- Error cases of `compare_hashes`: the explicit
`ValueError("Hash lengths must be equal")` raised on a length mismatch (the
spec's `DimensionMismatch`), and the `ValueError` raised by `int(s, 16)` on a
non-hex string. -/
inductive HashCompareError where
  | dimensionMismatch : HashCompareError
  | invalidHexDigit : HashCompareError
deriving DecidableEq

/-- `ScreenCapture.compare_hashes`: Hamming distance of two equal-length hex
hashes, `Except` error on length mismatch or unparsable input. -/
def compare_hashes (hash1 hash2 : String) : Except HashCompareError Nat :=
  if hash1.length ≠ hash2.length then .error .dimensionMismatch
  else
    match parseHex hash1, parseHex hash2 with
    | some int1, some int2 => .ok (popcount (int1 ^^^ int2))
    | _, _ => .error .invalidHexDigit

/-! ## `ActivityDaemon._hamming_distance` and `_should_skip_screenshot`
(src/tracker/daemon.py) -/

/-- Result of `ActivityDaemon._hamming_distance`: `infinite` models the
`float('inf')` returned when the lengths differ, `dist d` the bit count, and
`error` the `ValueError` that `int(s, 16)` would raise on non-hex input. -/
inductive HamResult where
  | infinite : HamResult
  | dist : Nat → HamResult
  | error : HamResult
deriving DecidableEq

/-- `ActivityDaemon._hamming_distance`: length check first (returning
infinity), then XOR-popcount of the parsed hex values. -/
def hamming_distance (hash1 hash2 : String) : HamResult :=
  if hash1.length ≠ hash2.length then .infinite
  else
    match parseHex hash1, parseHex hash2 with
    | some int1, some int2 => .dist (popcount (int1 ^^^ int2))
    | _, _ => .error

/-- `ActivityDaemon._should_skip_screenshot`. `last` is `self.last_dhash`
(`none` = Python `None`); Python's `not` treats both `None` and `""` as
falsy. The outer `none` models an uncaught exception escaping the method;
`some b` is a normal return. `float('inf') < 3` is `False`, hence the
`infinite` branch returns `some false`. -/
def should_skip (last : Option String) (current_dhash : String) : Option Bool :=
  match last with
  | none => some false
  | some last_dhash =>
    if last_dhash.isEmpty || current_dhash.isEmpty then some false
    else
      match hamming_distance current_dhash last_dhash with
      | .infinite => some false
      | .dist d => some (decide (d < 3))
      | .error => none

/-! ## Session records and the storage interface

One row of the `activity_sessions` table. Timestamps are integer seconds
(the ISO strings of the source, with exact second-level datetime
arithmetic). -/

structure SessionRow where
  id : Nat
  start_time : Int
  end_time : Option Int
  duration_seconds : Option Int
  screenshot_count : Nat
  unique_windows : Nat
deriving DecidableEq

/-- Modelled from the spec: the storage interface of §6
(`create_session` / `get_session` / `end_session` / `delete_session` /
`get_active_session`) consumed by `SessionManager`; the SQLite backend
implementing these calls is not part of the sources. Sessions live in a
table with autoincrement ids. -/
structure SessionStore where
  rows : List SessionRow
  nextId : Nat
deriving DecidableEq

/-- Modelled from the spec: `create_session(start_time) -> id` inserts an
open session row and returns its fresh id. -/
def SessionStore.create_session (st : SessionStore) (start : Int) :
    SessionStore × Nat :=
  ({ rows := st.rows ++
      [{ id := st.nextId, start_time := start, end_time := none,
         duration_seconds := none, screenshot_count := 0, unique_windows := 0 }],
     nextId := st.nextId + 1 }, st.nextId)

/-- Modelled from the spec: `get_session(id) -> record|none`. -/
def SessionStore.get_session (st : SessionStore) (sid : Nat) : Option SessionRow :=
  st.rows.find? fun r => r.id = sid

/-- Modelled from the spec: `delete_session(id)`. -/
def SessionStore.delete_session (st : SessionStore) (sid : Nat) : SessionStore :=
  { st with rows := st.rows.filter fun r => ¬ r.id = sid }

/-- Modelled from the spec: `end_session(id, end_time, duration_seconds)`
writes the closing fields of the row. -/
def SessionStore.end_session_db (st : SessionStore) (sid : Nat)
    (endT dur : Int) : SessionStore :=
  { st with rows := st.rows.map fun r =>
      if r.id = sid then { r with end_time := some endT, duration_seconds := some dur } else r }

/-! ## `SessionManager` (src/tracker/sessions.py) -/

/-- `SessionManager.start_session`: creates a session starting `now`
(`datetime.now()` in the source) and returns its id. -/
def start_session (st : SessionStore) (now : Int) : SessionStore × Nat :=
  st.create_session now

/-- `SessionManager.end_session`: closes session `sid` at
`end_time?.getD now` (`end_time or datetime.now()`).  Computes
`duration_seconds = int((end_time - start_time).total_seconds())` and
`duration_minutes = duration_seconds / 60` (Python true division, hence the
rational comparison); a session shorter than `min_session_minutes` is
deleted and `none` is returned, otherwise the closed row is re-read and
returned. -/
def end_session (min_session_minutes : Nat) (st : SessionStore) (sid : Nat)
    (end_time? : Option Int) (now : Int) : SessionStore × Option SessionRow :=
  let endT := end_time?.getD now
  match st.get_session sid with
  | none => (st, none)
  | some session =>
    let duration_seconds : Int := endT - session.start_time
    if (duration_seconds : ℚ) / 60 < (min_session_minutes : ℚ) then
      (st.delete_session sid, none)
    else
      let st' := st.end_session_db sid endT duration_seconds
      (st', st'.get_session sid)

/-! ## The capture/segmentation loop

Modelled from the spec: §4.3's state machine over the capture stream.  The
`run` loop in `src/tracker/daemon.py` only captures and saves screenshots;
the loop that drives `SessionManager` by the idle-gap rule (Idle + capture
opens a session; Active + capture within the gap keeps it; Active + capture
after the gap closes at the previous capture's timestamp and reopens) is not
among the sources, so it is modelled here from §4.3, calling the
`start_session` / `end_session` operations ported above.  Aggregate and
seen-title updates are omitted: they do not affect the session lifecycle. -/

structure LoopCtx where
  store : SessionStore
  /-- Open session id together with the last capture timestamp, `none` when
  Idle. -/
  current : Option (Nat × Int)
  /-- Number of sessions created so far (calls to `start_session`). -/
  created : Nat
deriving DecidableEq

/-- Modelled from the spec: one capture tick of the segmentation loop at
timestamp `t` (§4.3 transitions). -/
def tick (idle_gap : Int) (min_session_minutes : Nat) (ctx : LoopCtx)
    (t : Int) : LoopCtx :=
  match ctx.current with
  | none =>
    let (st', sid) := start_session ctx.store t
    { store := st', current := some (sid, t), created := ctx.created + 1 }
  | some (sid, last) =>
    if t - last < idle_gap then
      { ctx with current := some (sid, t) }
    else
      let (st2, _) := end_session min_session_minutes ctx.store sid (some last) last
      let (st3, sid') := start_session st2 t
      { store := st3, current := some (sid', t), created := ctx.created + 1 }

/-- Modelled from the spec: processing a whole capture sequence from the
Idle initial state over an empty store. -/
def runLoop (idle_gap : Int) (min_session_minutes : Nat) (ts : List Int) : LoopCtx :=
  ts.foldl (tick idle_gap min_session_minutes)
    { store := { rows := [], nextId := 0 }, current := none, created := 0 }

/-! ## `scripts/merge_fragmented_sessions.py`

The repairer's database: `activity_sessions` plus the three child tables
whose foreign keys it rewrites. -/

/-- One row of `session_screenshots`. -/
structure ScreenshotLink where
  screenshot_id : Nat
  session_id : Nat
deriving DecidableEq

/-- One row of `window_focus_events` (only the columns the script touches;
`window_title` is nullable). -/
structure FocusRow where
  window_title : Option String
  session_id : Nat
deriving DecidableEq

/-- One row of `session_ocr_cache` (unique on `(session_id, window_title)`). -/
structure OcrRow where
  session_id : Nat
  window_title : Option String
deriving DecidableEq

structure MergeDB where
  sessions : List SessionRow
  screenshots : List ScreenshotLink
  focus : List FocusRow
  ocr : List OcrRow
deriving DecidableEq

/-- `SELECT ... FROM activity_sessions WHERE id = ?`. -/
def MergeDB.getSession (db : MergeDB) (sid : Nat) : Option SessionRow :=
  db.sessions.find? fun s => s.id = sid

/-- The `ORDER BY s1.id` of the pair query (any stable sort models SQL
ordering; ids are unique, being the primary key). -/
def MergeDB.sortedSessions (db : MergeDB) : List SessionRow :=
  db.sessions.insertionSort fun a b => a.id ≤ b.id

instance sessionIdLeTotal : IsTotal SessionRow fun a b => a.id ≤ b.id :=
  ⟨fun a b => Nat.le_total a.id b.id⟩

instance sessionIdLeTrans : IsTrans SessionRow fun a b => a.id ≤ b.id :=
  ⟨fun _ _ _ => Nat.le_trans⟩

/-- `find_fragmented_pairs_with_threshold`: the self-join
`s2.id = s1.id + 1` over closed sessions with
`0 < gap < gap_threshold` where `gap = s2.start_time - s1.end_time`
(seconds, as computed from `julianday` differences), ordered by `s1.id`.
Returns the `(s1_id, s2_id)` id pairs. -/
def find_fragmented_pairs_with_threshold (db : MergeDB) (gap_threshold : Int) :
    List (Nat × Nat) :=
  db.sortedSessions.filterMap fun s1 =>
    match db.getSession (s1.id + 1) with
    | none => none
    | some s2 =>
      match s1.end_time, s2.end_time with
      | some e1, some _ =>
        if 0 < s2.start_time - e1 ∧ s2.start_time - e1 < gap_threshold then
          some (s1.id, s2.id)
        else none
      | _, _ => none

/-- The loop of `build_merge_chains`: extend `current_chain` while the next
pair's first id equals its last element, otherwise emit it and restart. -/
def bmcLoop : List (Nat × Nat) → List (List Nat) → List Nat → List (List Nat)
  | [], chains, current => chains ++ [current]
  | (a, b) :: rest, chains, current =>
    if a = current.getLastD 0 then bmcLoop rest chains (current ++ [b])
    else bmcLoop rest (chains ++ [current]) [a, b]

/-- `build_merge_chains`: group consecutive restart pairs into transitive
merge chains. -/
def build_merge_chains : List (Nat × Nat) → List (List Nat)
  | [] => []
  | (a, b) :: rest => bmcLoop rest [] [a, b]

/-- `UPDATE session_screenshots SET session_id = keep WHERE session_id = del`. -/
def reassignScreens (l : List ScreenshotLink) (del keep : Nat) : List ScreenshotLink :=
  l.map fun r => if r.session_id = del then { r with session_id := keep } else r

/-- `UPDATE window_focus_events SET session_id = keep WHERE session_id = del`. -/
def reassignFocus (l : List FocusRow) (del keep : Nat) : List FocusRow :=
  l.map fun r => if r.session_id = del then { r with session_id := keep } else r

/-- The `session_ocr_cache` step: first
`DELETE ... WHERE session_id = del AND window_title IN
(SELECT window_title ... WHERE session_id = keep)` (SQL `IN` never matches a
NULL title), then `UPDATE ... SET session_id = keep WHERE session_id = del`. -/
def ocrDedupReassign (l : List OcrRow) (del keep : Nat) : List OcrRow :=
  let keepTitles := (l.filter fun k => k.session_id = keep).filterMap OcrRow.window_title
  (l.filter fun r =>
      ¬ (r.session_id = del ∧ ∃ w ∈ keepTitles, r.window_title = some w)).map
    fun r => if r.session_id = del then { r with session_id := keep } else r

/-- The per-donor foreign-key rewrites of `merge_chain`'s update loop. -/
def applyFkUpdates (db : MergeDB) (keep del : Nat) : MergeDB :=
  { db with
    screenshots := reassignScreens db.screenshots del keep
    focus := reassignFocus db.focus del keep
    ocr := ocrDedupReassign db.ocr del keep }

/-- `merge_chain` (non-dry-run): merges a chain of session ids into its
first element.  Chains shorter than 2 and chains whose first or last
session is missing are no-ops; a `NULL` last `end_time` would make
`datetime.fromisoformat` raise before any write, so the store is likewise
left untouched.  Otherwise: rewrite the child foreign keys donor by donor,
set the survivor's `end_time`/`duration_seconds`, recompute
`screenshot_count` (`COUNT(*)` of its screenshots) and `unique_windows`
(`COUNT(DISTINCT window_title)` of its focus events, NULLs not counted),
and delete the donor session rows. -/
def merge_chain (db : MergeDB) (chain : List Nat) : MergeDB :=
  match chain with
  | [] => db
  | [_] => db
  | keep :: delete_ids =>
    match db.getSession keep, db.getSession (chain.getLastD 0) with
    | some first_session, some last_session =>
      match last_session.end_time with
      | none => db
      | some new_end_time =>
        let new_duration : Int := new_end_time - first_session.start_time
        let db1 : MergeDB := delete_ids.foldl (fun d del => applyFkUpdates d keep del) db
        let db2 : MergeDB := { db1 with sessions := db1.sessions.map fun s =>
          if s.id = keep then
            { s with end_time := some new_end_time, duration_seconds := some new_duration }
          else s }
        let screenshot_count :=
          (db2.screenshots.filter fun r => r.session_id = keep).length
        let unique_windows :=
          (((db2.focus.filter fun r => r.session_id = keep).filterMap
            FocusRow.window_title).dedup).length
        let db3 : MergeDB := { db2 with sessions := db2.sessions.map fun s =>
          if s.id = keep then
            { s with screenshot_count := screenshot_count, unique_windows := unique_windows }
          else s }
        { db3 with sessions := db3.sessions.filter fun s => ¬ delete_ids.contains s.id }
    | _, _ => db

/-- The main routine's find-and-merge pass: find the fragmented pairs, build
the chains, merge them in order. -/
def run_repair (db : MergeDB) (gap_threshold : Int) : MergeDB :=
  (build_merge_chains (find_fragmented_pairs_with_threshold db gap_threshold)).foldl
    merge_chain db

/-! ## Predicates and concrete fixtures used by the theorems -/

/-- Primary-key well-formedness of the repairer's database: session ids are
unique (`id INTEGER PRIMARY KEY`). -/
def NodupIds (db : MergeDB) : Prop := (db.sessions.map SessionRow.id).Nodup

instance (db : MergeDB) : Decidable (NodupIds db) := by
  unfold NodupIds
  infer_instance

/-- A consecutive run of at least two session ids,
`[a, a+1, ..., a+k+1]`. -/
def IsRun (c : List Nat) : Prop := ∃ a k, c = List.range' a (k + 2)

/-- There is a session with id `x` whose `end_time` is not NULL. -/
def hasClosedSession (db : MergeDB) (x : Nat) : Prop :=
  ∃ s ∈ db.sessions, s.id = x ∧ s.end_time ≠ none

/-- A closed session row with accurate stored aggregates left unspecified. -/
def mkClosed (i : Nat) (s e : Int) (cnt uw : Nat) : SessionRow :=
  { id := i, start_time := s, end_time := some e, duration_seconds := some (e - s),
    screenshot_count := cnt, unique_windows := uw }

/-- The four sessions of the spec's concrete gap scenario, timestamps in
seconds of day: 9:00–10:30, 10:45–12:00, 13:00–15:00, 15:00:30–17:00
(gaps of 15 min, 60 min and 30 s). -/
def gapScenarioDB : MergeDB :=
  { sessions := [mkClosed 1 32400 37800 0 0, mkClosed 2 38700 43200 0 0,
                 mkClosed 3 46800 54000 0 0, mkClosed 4 54030 61200 0 0],
    screenshots := [], focus := [], ocr := [] }

/-- Post-resize pixel grid for `hash_size = 9` (10 columns × 9 rows) whose
only descending horizontal pair sits at row 8, column 8, i.e. difference
bit 80. -/
def ninePixels : List Nat := List.replicate 88 0 ++ [1, 0]

/-- Three closed sessions fragmented by two restart gaps (10 s and 30 s),
with their child records. -/
def threeFragmentsDB : MergeDB :=
  { sessions := [mkClosed 1 0 100 2 1, mkClosed 2 110 200 1 1, mkClosed 3 230 300 2 1],
    screenshots := [⟨10, 1⟩, ⟨11, 1⟩, ⟨12, 2⟩, ⟨13, 3⟩, ⟨14, 3⟩],
    focus := [⟨some "w", 1⟩], ocr := [] }

/-! ## Supporting lemmas -/

theorem bitsToNat_lt (bits : List Bool) : bitsToNat bits < 2 ^ bits.length := by
  induction bits with
  | nil => simp [bitsToNat]
  | cons b rest ih =>
    have h : 2 ^ (b :: rest).length = 2 ^ rest.length * 2 := by
      simp [List.length_cons, pow_succ]
    rw [h]
    rcases b <;> simp [bitsToNat] <;> omega

theorem toHexDigits_length_le :
    ∀ (f n k : Nat), 0 < k → n < 16 ^ k → (toHexDigits f n).length ≤ k := by
  intro f
  induction f with
  | zero => intro n k hk _; simp [toHexDigits]
  | succ f ih =>
    intro n k hk hn
    rw [toHexDigits_succ]
    by_cases h16 : n < 16
    · simpa [h16] using hk
    · have hk2 : 2 ≤ k := by
        rcases Nat.lt_or_ge k 2 with hlt | hge
        · exfalso
          have hk1 : k = 1 := by omega
          rw [hk1, pow_one] at hn
          omega
        · exact hge
      have hdiv : n / 16 < 16 ^ (k - 1) := by
        apply Nat.div_lt_of_lt_mul
        have : (16 : Nat) ^ k = 16 * 16 ^ (k - 1) := by
          conv_lhs => rw [show k = (k - 1) + 1 by omega]
          rw [pow_succ]; ring
        omega
      have hrec := ih (n / 16) (k - 1) (by omega) hdiv
      simp only [h16, if_false, List.length_append, List.length_cons, List.length_nil]
      omega

theorem hexRepr_length_le (n k : Nat) (hk : 0 < k) (hn : n < 16 ^ k) :
    (hexRepr n).length ≤ k :=
  toHexDigits_length_le _ n k hk hn

theorem string_length_mk (l : List Char) : (String.mk l).length = l.length := rfl

theorem format016x_length_eq (n : Nat) (h : n < 16 ^ 16) :
    (format016x n).length = 16 := by
  have hL : (hexRepr n).length ≤ 16 := hexRepr_length_le n 16 (by omega) h
  simp only [format016x, string_length_mk, List.length_append, List.length_replicate]
  omega

theorem format016x_length_ge (n : Nat) : 16 ≤ (format016x n).length := by
  simp only [format016x, string_length_mk, List.length_append, List.length_replicate]
  omega

theorem dhashBits_length (pixels : List Nat) (hs : Nat) :
    (dhashBits pixels hs).length = hs * hs := by
  unfold dhashBits
  rw [List.length_flatten]
  have h : ((List.range hs).map fun row =>
      (List.range hs).map fun col =>
        decide (pixels.getD (row * (hs + 1) + col) 0 >
                pixels.getD (row * (hs + 1) + col + 1) 0)).map List.length =
      (List.range hs).map fun _ => hs := by
    rw [List.map_map]
    apply List.map_congr_left
    intro a _
    simp
  rw [h, List.map_const', List.sum_replicate, List.length_range, smul_eq_mul]

theorem parseHex_total (s : String) (h : isHexString s) : ∃ n, parseHex s = some n := by
  obtain ⟨hne, hdig⟩ := h
  unfold parseHex
  rw [if_neg hne]
  have key : ∀ (l : List Char) (acc : Nat), (∀ c ∈ l, (hexDigitVal c).isSome) →
      ∃ n, l.foldl (fun acc c => acc.bind fun n => (hexDigitVal c).map fun d => 16 * n + d)
        (some acc) = some n := by
    intro l
    induction l with
    | nil => exact fun acc _ => ⟨acc, rfl⟩
    | cons c rest ih =>
      intro acc hall
      obtain ⟨d, hd⟩ := Option.isSome_iff_exists.mp (hall c (by simp))
      rw [List.foldl_cons]
      have hstep : (some acc).bind
          (fun n => (hexDigitVal c).map fun d => 16 * n + d) = some (16 * acc + d) := by
        simp [hd]
      rw [hstep]
      exact ih _ fun x hx => hall x (by simp [hx])
  exact key s.data 0 hdig

/-! ## Claim theorems -/

/-- C2 counterexample: on the spec's four-session scenario with an upper
gap threshold of 120 minutes, the repairer's gap finder returns three
qualifying pairs, not two — in particular the 30-second gap between
sessions 3 and 4 IS counted, since the finder's only lower bound on a gap
is that it be positive. -/
theorem gap_scenario_counterexample :
    (find_fragmented_pairs_with_threshold gapScenarioDB 7200).length ≠ 2 ∧
      (3, 4) ∈ find_fragmented_pairs_with_threshold gapScenarioDB 7200 := by
  decide

/-- C2 (amended): on the four closed sessions 9:00–10:30, 10:45–12:00,
13:00–15:00 and 15:00:30–17:00 with a 120-minute upper threshold, the
repairer's gap-finding step finds exactly 3 qualifying gaps — the
15-minute, 60-minute and 30-second gaps — because it qualifies every
strictly positive gap below the threshold; the 1-minute lower bound of the
spec's break window is not part of the repairer. -/
theorem gap_scenario_finds_three_pairs :
    find_fragmented_pairs_with_threshold gapScenarioDB 7200 = [(1, 2), (2, 3), (3, 4)] := by
  decide

set_option maxRecDepth 20000 in
/-- C10 counterexample: with `hash_size = 9` and a pixel grid whose
difference bit 80 is set, `_generate_dhash` returns a 21-character string,
not a 16-character one: `f"{v:016x}"` pads to a minimum of 16 characters
but does not truncate. -/
theorem dhash_not_always_16_chars :
    (generate_dhash ninePixels 9).length = 21 ∧ (generate_dhash ninePixels 9).length ≠ 16 := by
  decide

/-- C10 (amended): the dhash string has exactly 16 hex characters for the
default `hash_size = 8` (64 difference bits always fit in 16 hex digits),
and at least 16 characters for every `hash_size`; hashes produced with a
larger `hash_size` can be longer, so equal string length is only guaranteed
among hashes produced with `hash_size` values whose bit counts fit 64
bits. -/
theorem dhash_length_default_16 :
    (∀ pixels, (generate_dhash pixels 8).length = 16) ∧
      ∀ pixels hash_size, 16 ≤ (generate_dhash pixels hash_size).length := by
  constructor
  · intro px
    apply format016x_length_eq
    have h := bitsToNat_lt (dhashBits px 8)
    rw [dhashBits_length] at h
    calc bitsToNat (dhashBits px 8) < 2 ^ (8 * 8) := h
    _ = 16 ^ 16 := by norm_num
  · intro px hs
    exact format016x_length_ge _

/-- C8: `compare_hashes` fails with the dimension-mismatch error (the
`ValueError("Hash lengths must be equal")`) whenever the two hash strings
have different lengths, and succeeds with a distance on any two
equal-length hex hashes. -/
theorem compare_hashes_dimension_mismatch (h1 h2 : String) :
    (h1.length ≠ h2.length → compare_hashes h1 h2 = .error .dimensionMismatch) ∧
      (h1.length = h2.length → isHexString h1 → isHexString h2 →
        ∃ d, compare_hashes h1 h2 = .ok d) := by
  constructor
  · intro hne
    unfold compare_hashes
    rw [if_pos hne]
  · intro heq hx1 hx2
    obtain ⟨n1, hn1⟩ := parseHex_total h1 hx1
    obtain ⟨n2, hn2⟩ := parseHex_total h2 hx2
    refine ⟨popcount (n1 ^^^ n2), ?_⟩
    unfold compare_hashes
    rw [if_neg (by omega), hn1, hn2]

/-- C8 witness: a concrete mismatching pair fails and a concrete
equal-length hex pair succeeds. -/
theorem compare_hashes_dimension_mismatch_witness :
    compare_hashes "abc" "0000000000000000" = .error .dimensionMismatch ∧
      ∃ d, compare_hashes "00" "ff" = .ok d :=
  ⟨(compare_hashes_dimension_mismatch "abc" "0000000000000000").1 (by decide),
   (compare_hashes_dimension_mismatch "00" "ff").2 (by decide) (by decide) (by decide)⟩

/-- C9: a stored hash and a candidate hash of different lengths make the
duplicate decision return `false` without raising: `_hamming_distance`
returns infinity on the length mismatch before any parsing, and
`inf < 3` is false.  The result being `some false` (rather than the `none`
that models an escaped exception) is the no-crash part of the claim. -/
theorem should_skip_length_mismatch (lh cur : String) (hne : lh.length ≠ cur.length) :
    should_skip (some lh) cur = some false := by
  unfold should_skip
  by_cases he : lh.isEmpty || cur.isEmpty
  · simp [he]
  · have hcl : cur.length ≠ lh.length := fun h => hne h.symm
    have hham : hamming_distance cur lh = .infinite := by
      unfold hamming_distance
      rw [if_pos hcl]
    simp [he, hham]

/-- C9 witness. -/
theorem should_skip_length_mismatch_witness :
    should_skip (some "00") "abc" = some false :=
  should_skip_length_mismatch "00" "abc" (by decide)

/-- C3: the duplicate decision returns `false` when there is no previously
accepted hash (`None` or empty) or the candidate is absent (empty);
otherwise it returns `true` exactly when `_hamming_distance` yields a
finite distance strictly below 3 (an infinite distance from a length
mismatch, or an error, never yields `true`). -/
theorem should_skip_spec (last : Option String) (cur : String) :
    ((last = none ∨ last = some "" ∨ cur = "") → should_skip last cur = some false) ∧
      (∀ lh, last = some lh → lh ≠ "" → cur ≠ "" →
        (should_skip last cur = some true ↔
          ∃ d, hamming_distance cur lh = .dist d ∧ d < 3)) := by
  constructor
  · rintro (rfl | rfl | rfl)
    · rfl
    · simp [should_skip, show ("" : String).isEmpty = true from rfl]
    · rcases last with _ | lh
      · rfl
      · simp [should_skip, show ("" : String).isEmpty = true from rfl, Bool.or_true]
  · rintro lh rfl hlh hcur
    have hle : lh.isEmpty = false := by
      rcases hl : lh.isEmpty
      · rfl
      · exact absurd ((String.isEmpty_iff lh).mp hl) hlh
    have hce : cur.isEmpty = false := by
      rcases hc : cur.isEmpty
      · rfl
      · exact absurd ((String.isEmpty_iff cur).mp hc) hcur
    simp only [should_skip, hle, hce, Bool.or_false, Bool.false_eq_true, if_false]
    rcases hham : hamming_distance cur lh with _ | d
    · constructor
      · intro h; simp at h
      · rintro ⟨d, hd, _⟩; simp at hd
    · simp only [Option.some_inj, decide_eq_true_eq]
      constructor
      · intro h; exact ⟨d, rfl, h⟩
      · rintro ⟨d', hd', hlt⟩
        obtain rfl : d = d' := by injection hd'
        exact hlt
    · constructor
      · intro h; simp at h
      · rintro ⟨d, hd, _⟩; simp at hd

/-- C3 witness: hashes `"00"` and `"01"` (Hamming distance 1) are a skip. -/
theorem should_skip_spec_witness :
    should_skip (some "00") "01" = some true ↔
      ∃ d, hamming_distance "01" "00" = .dist d ∧ d < 3 :=
  (should_skip_spec (some "00") "01").2 "00" rfl (by decide) (by decide)

/-- C4: ending a session whose computed duration is below the
minimum-duration threshold deletes it: `end_session` returns no session and
a subsequent `get_session` for that id finds no record. -/
theorem end_session_discards_short (min_session_minutes : Nat) (st : SessionStore)
    (sid : Nat) (endT now : Int) (s : SessionRow)
    (hget : st.get_session sid = some s)
    (hshort : ((endT - s.start_time : Int) : ℚ) / 60 < (min_session_minutes : ℚ)) :
    (end_session min_session_minutes st sid (some endT) now).2 = none ∧
      ((end_session min_session_minutes st sid (some endT) now).1).get_session sid =
        none := by
  unfold end_session
  rw [Option.getD_some, hget]
  simp only [if_pos hshort]
  refine ⟨by trivial, ?_⟩
  simp only [SessionStore.get_session, SessionStore.delete_session]
  rw [List.find?_eq_none]
  intro r hr
  rw [List.mem_filter] at hr
  simpa using hr.2

/-- C4 witness: a session opened at time 0 and closed at time 100 (100 s,
below the 5-minute minimum) is deleted. -/
theorem end_session_discards_short_witness :
    (end_session 5 ⟨[⟨7, 0, none, none, 0, 0⟩], 8⟩ 7 (some 100) 100).2 = none ∧
      ((end_session 5 ⟨[⟨7, 0, none, none, 0, 0⟩], 8⟩ 7 (some 100) 100).1).get_session 7 =
        none :=
  end_session_discards_short 5 ⟨[⟨7, 0, none, none, 0, 0⟩], 8⟩ 7 100 100
    ⟨7, 0, none, none, 0, 0⟩ (by decide) (by norm_num)

/-- In-session captures (gap strictly below the idle threshold) never
create a session: the loop keeps the open session through each of them. -/
theorem loop_stays_in_session (idle_gap : Int) (minM : Nat) :
    ∀ (ts : List Int) (ctx : LoopCtx) (sid : Nat) (last : Int),
      ctx.current = some (sid, last) →
      List.Chain (fun a b => b - a < idle_gap) last ts →
      (ts.foldl (tick idle_gap minM) ctx).created = ctx.created := by
  intro ts
  induction ts with
  | nil => intro ctx sid last _ _; rfl
  | cons t rest ih =>
    intro ctx sid last hcur hchain
    rcases hchain with _ | ⟨hlt, hchain'⟩
    rw [List.foldl_cons]
    have htick : tick idle_gap minM ctx t = { ctx with current := some (sid, t) } := by
      unfold tick
      rw [hcur]
      simp [if_pos hlt]
    rw [htick]
    exact ih _ sid t rfl hchain'

/-- C1: a capture sequence whose consecutive timestamps are all separated
by strictly less than the idle-gap threshold creates exactly one session,
whatever its length. -/
theorem single_session_under_gap (idle_gap : Int) (minM : Nat) (t0 : Int)
    (ts : List Int) (h : List.Chain (fun a b => b - a < idle_gap) t0 ts) :
    (runLoop idle_gap minM (t0 :: ts)).created = 1 := by
  unfold runLoop
  rw [List.foldl_cons]
  have hres := loop_stays_in_session idle_gap minM ts
    (tick idle_gap minM ⟨⟨[], 0⟩, none, 0⟩ t0) 0 t0 rfl h
  rw [hres]
  rfl

/-- C1 witness: three captures 30 seconds apart under a 300-second idle gap
yield one session. -/
theorem single_session_under_gap_witness :
    (runLoop 300 5 [0, 30, 60]).created = 1 :=
  single_session_under_gap 300 5 0 [30, 60]
    (List.Chain.cons (by decide) (List.Chain.cons (by decide) List.Chain.nil))

/-! ## Structure of the merge chains built by `build_merge_chains`

The pair lists fed to `build_merge_chains` come from
`find_fragmented_pairs_with_threshold`: every pair is `(a, a + 1)` and the
first components are strictly increasing (the query is ordered by `s1.id`
and ids are unique).  Under those two hypotheses the chain builder produces
pairwise-disjoint consecutive runs covering every pair. -/

theorem getLastD_range' (a k : Nat) : (List.range' a (k + 1)).getLastD 0 = a + k := by
  rw [List.range'_concat, List.getLastD_concat]
  simp

theorem bmcLoop_spec (S : Nat → Prop) :
    ∀ (ps : List (Nat × Nat)) (chains : List (List Nat)) (a k : Nat),
      (∀ p ∈ ps, p.2 = p.1 + 1) →
      List.Sorted (· < ·) (ps.map Prod.fst) →
      (∀ p ∈ ps, a + k + 1 ≤ p.1) →
      (∀ p ∈ ps, S p.1 ∧ S p.2) →
      (∀ c ∈ chains, IsRun c) →
      (∀ c ∈ chains, ∀ x ∈ c, S x) →
      (∀ x ∈ List.range' a (k + 2), S x) →
      (∀ c ∈ chains, ∀ x ∈ c, x < a) →
      List.Pairwise (fun c d => ∀ x ∈ c, ∀ y ∈ d, x < y) chains →
      (∀ c ∈ bmcLoop ps chains (List.range' a (k + 2)), IsRun c) ∧
      (∀ c ∈ bmcLoop ps chains (List.range' a (k + 2)), ∀ x ∈ c, S x) ∧
      (∀ p ∈ ps, ∃ c ∈ bmcLoop ps chains (List.range' a (k + 2)), p.1 ∈ c ∧ p.2 ∈ c) ∧
      (∀ c ∈ chains, c ∈ bmcLoop ps chains (List.range' a (k + 2))) ∧
      (∃ c ∈ bmcLoop ps chains (List.range' a (k + 2)),
        ∀ y ∈ List.range' a (k + 2), y ∈ c) ∧
      List.Pairwise (fun c d => ∀ x ∈ c, ∀ y ∈ d, x < y)
        (bmcLoop ps chains (List.range' a (k + 2))) := by
  intro ps
  induction ps with
  | nil =>
    intro chains a k _ _ _ _ hrun hSc hcur hbelow hpw
    rw [show bmcLoop [] chains (List.range' a (k + 2)) =
      chains ++ [List.range' a (k + 2)] from rfl]
    refine ⟨?_, ?_, ?_, ?_, ?_, ?_⟩
    · intro c hc
      rcases List.mem_append.mp hc with h | h
      · exact hrun c h
      · rw [List.mem_singleton.mp h]
        exact ⟨a, k, rfl⟩
    · intro c hc
      rcases List.mem_append.mp hc with h | h
      · exact hSc c h
      · rw [List.mem_singleton.mp h]
        exact hcur
    · intro p hp
      simp at hp
    · intro c hc
      exact List.mem_append_left _ hc
    · exact ⟨_, List.mem_append_right _ (List.mem_singleton_self _), fun y hy => hy⟩
    · rw [List.pairwise_append]
      refine ⟨hpw, List.pairwise_singleton _ _, ?_⟩
      intro c hc d hd
      rw [List.mem_singleton.mp hd]
      intro z hz y hy
      exact lt_of_lt_of_le (hbelow c hc z hz) (List.mem_range'_1.mp hy).1
  | cons p rest ih =>
    rcases p with ⟨x, y⟩
    intro chains a k hcons hsorted hge hS hrun hSc hcur hbelow hpw
    have hy : y = x + 1 := hcons (x, y) (by simp)
    subst hy
    have hgex : a + k + 1 ≤ x := hge (x, x + 1) (by simp)
    rw [List.map_cons] at hsorted
    have hsorted' := List.sorted_cons.mp hsorted
    have hlast : (List.range' a (k + 2)).getLastD 0 = a + k + 1 := getLastD_range' a (k + 1)
    rw [show bmcLoop ((x, x + 1) :: rest) chains (List.range' a (k + 2)) =
      if x = (List.range' a (k + 2)).getLastD 0 then
        bmcLoop rest chains (List.range' a (k + 2) ++ [x + 1])
      else bmcLoop rest (chains ++ [List.range' a (k + 2)]) [x, x + 1] from rfl]
    have hcond : (x = (List.range' a (k + 2)).getLastD 0) ↔ x = a + k + 1 := by
      rw [hlast]
    by_cases hx : x = a + k + 1
    · rw [if_pos (hcond.mpr hx)]
      have hext : List.range' a (k + 2) ++ [x + 1] = List.range' a (k + 1 + 2) := by
        have hx1 : x + 1 = a + 1 * (k + 2) := by omega
        calc List.range' a (k + 2) ++ [x + 1]
            = List.range' a (k + 2) ++ [a + 1 * (k + 2)] := by rw [hx1]
          _ = List.range' a ((k + 2) + 1) := (List.range'_concat a (k + 2)).symm
          _ = List.range' a (k + 1 + 2) := by rw [Nat.add_right_comm k 2 1]
      rw [hext]
      have rec := ih chains a (k + 1)
        (fun p hp => hcons p (List.mem_cons_of_mem _ hp))
        hsorted'.2
        (fun p hp => by
          have := hsorted'.1 p.1 (List.mem_map_of_mem Prod.fst hp)
          omega)
        (fun p hp => hS p (List.mem_cons_of_mem _ hp))
        hrun hSc
        (fun z hz => by
          rcases List.mem_range'_1.mp hz with ⟨hz1, hz2⟩
          by_cases hzlt : z < a + (k + 2)
          · exact hcur z (List.mem_range'_1.mpr ⟨hz1, hzlt⟩)
          · have hzx : z = x + 1 := by omega
            rw [hzx]
            exact (hS (x, x + 1) (by simp)).2)
        hbelow hpw
      obtain ⟨r1, r2, r3, r4, r5, r6⟩ := rec
      refine ⟨r1, r2, ?_, r4, ?_, r6⟩
      · intro p hp
        rcases List.mem_cons.mp hp with rfl | hp'
        · obtain ⟨c, hcR, hsub⟩ := r5
          exact ⟨c, hcR,
            hsub x (List.mem_range'_1.mpr ⟨by omega, by omega⟩),
            hsub (x + 1) (List.mem_range'_1.mpr ⟨by omega, by omega⟩)⟩
        · exact r3 p hp'
      · obtain ⟨c, hcR, hsub⟩ := r5
        refine ⟨c, hcR, fun z hz => hsub z ?_⟩
        rcases List.mem_range'_1.mp hz with ⟨hz1, hz2⟩
        exact List.mem_range'_1.mpr ⟨hz1, by omega⟩
    · rw [if_neg fun h => hx (hcond.mp h)]
      have hxgt : a + k + 1 < x := lt_of_le_of_ne hgex fun h => hx h.symm
      rw [show [x, x + 1] = List.range' x (0 + 2) by simp [List.range']]
      have rec := ih (chains ++ [List.range' a (k + 2)]) x 0
        (fun p hp => hcons p (List.mem_cons_of_mem _ hp))
        hsorted'.2
        (fun p hp => by
          have := hsorted'.1 p.1 (List.mem_map_of_mem Prod.fst hp)
          omega)
        (fun p hp => hS p (List.mem_cons_of_mem _ hp))
        (fun c hc => by
          rcases List.mem_append.mp hc with h | h
          · exact hrun c h
          · rw [List.mem_singleton.mp h]
            exact ⟨a, k, rfl⟩)
        (fun c hc => by
          rcases List.mem_append.mp hc with h | h
          · exact hSc c h
          · rw [List.mem_singleton.mp h]
            exact hcur)
        (fun z hz => by
          rcases List.mem_range'_1.mp hz with ⟨hz1, hz2⟩
          rcases (by omega : z = x ∨ z = x + 1) with h | h
          · rw [h]
            exact (hS (x, x + 1) (by simp)).1
          · rw [h]
            exact (hS (x, x + 1) (by simp)).2)
        (fun c hc z hz => by
          rcases List.mem_append.mp hc with h | h
          · exact lt_trans (hbelow c h z hz) (by omega)
          · rw [List.mem_singleton.mp h] at hz
            rcases List.mem_range'_1.mp hz with ⟨_, hz2⟩
            omega)
        (by
          rw [List.pairwise_append]
          refine ⟨hpw, List.pairwise_singleton _ _, ?_⟩
          intro c hc d hd
          rw [List.mem_singleton.mp hd]
          intro z hz w hw
          exact lt_of_lt_of_le (hbelow c hc z hz) (List.mem_range'_1.mp hw).1)
      obtain ⟨r1, r2, r3, r4, r5, r6⟩ := rec
      refine ⟨r1, r2, ?_, ?_, ?_, r6⟩
      · intro p hp
        rcases List.mem_cons.mp hp with rfl | hp'
        · obtain ⟨c, hcR, hsub⟩ := r5
          exact ⟨c, hcR,
            hsub x (List.mem_range'_1.mpr ⟨le_refl x, by omega⟩),
            hsub (x + 1) (List.mem_range'_1.mpr ⟨by omega, by omega⟩)⟩
        · exact r3 p hp'
      · intro c hc
        exact r4 c (List.mem_append_left _ hc)
      · refine ⟨List.range' a (k + 2),
          r4 _ (List.mem_append_right _ (List.mem_singleton_self _)),
          fun y hy => hy⟩

/-- Structure of `build_merge_chains` on a well-formed pair list (every
pair `(a, a+1)`, first components strictly sorted, endpoints satisfying an
arbitrary invariant `S`): the chains are consecutive runs of length at
least 2, their members all satisfy `S`, every pair's two endpoints land in
one common chain, and distinct chains are strictly separated. -/
theorem build_merge_chains_spec (S : Nat → Prop) (ps : List (Nat × Nat))
    (hcons : ∀ p ∈ ps, p.2 = p.1 + 1)
    (hsorted : List.Sorted (· < ·) (ps.map Prod.fst))
    (hS : ∀ p ∈ ps, S p.1 ∧ S p.2) :
    (∀ c ∈ build_merge_chains ps, IsRun c) ∧
    (∀ c ∈ build_merge_chains ps, ∀ x ∈ c, S x) ∧
    (∀ p ∈ ps, ∃ c ∈ build_merge_chains ps, p.1 ∈ c ∧ p.2 ∈ c) ∧
    List.Pairwise (fun c d => ∀ x ∈ c, ∀ y ∈ d, x < y) (build_merge_chains ps) := by
  rcases ps with _ | ⟨⟨x, y⟩, rest⟩
  · exact ⟨by simp [build_merge_chains], by simp [build_merge_chains],
      by simp, by simp [build_merge_chains]⟩
  · have hy : y = x + 1 := hcons (x, y) (by simp)
    subst hy
    rw [List.map_cons] at hsorted
    have hsorted' := List.sorted_cons.mp hsorted
    have hbmc : build_merge_chains ((x, x + 1) :: rest) =
        bmcLoop rest [] (List.range' x (0 + 2)) := by
      rw [show build_merge_chains ((x, x + 1) :: rest) = bmcLoop rest [] [x, x + 1] from rfl]
      rw [show [x, x + 1] = List.range' x (0 + 2) by simp [List.range']]
    have rec := bmcLoop_spec S rest [] x 0
      (fun p hp => hcons p (List.mem_cons_of_mem _ hp))
      hsorted'.2
      (fun p hp => by
        have := hsorted'.1 p.1 (List.mem_map_of_mem Prod.fst hp)
        omega)
      (fun p hp => hS p (List.mem_cons_of_mem _ hp))
      (by simp) (by simp)
      (fun z hz => by
        rcases List.mem_range'_1.mp hz with ⟨hz1, hz2⟩
        rcases (by omega : z = x ∨ z = x + 1) with h | h
        · rw [h]
          exact (hS (x, x + 1) (by simp)).1
        · rw [h]
          exact (hS (x, x + 1) (by simp)).2)
      (by simp) (by simp)
    obtain ⟨r1, r2, r3, r4, r5, r6⟩ := rec
    rw [hbmc]
    refine ⟨r1, r2, ?_, r6⟩
    intro p hp
    rcases List.mem_cons.mp hp with rfl | hp'
    · obtain ⟨c, hcR, hsub⟩ := r5
      exact ⟨c, hcR,
        hsub x (List.mem_range'_1.mpr ⟨le_refl x, by omega⟩),
        hsub (x + 1) (List.mem_range'_1.mpr ⟨by omega, by omega⟩)⟩
    · exact r3 p hp'

/-! ## Facts about the pairs found by `find_fragmented_pairs_with_threshold` -/

/-- Soundness: every returned pair joins two stored sessions with
consecutive ids, both closed, with a positive below-threshold gap. -/
theorem pairs_sound (db : MergeDB) (thr : Int) (a b : Nat)
    (h : (a, b) ∈ find_fragmented_pairs_with_threshold db thr) :
    b = a + 1 ∧
      ∃ s1 ∈ db.sessions, s1.id = a ∧
        ∃ s2 ∈ db.sessions, s2.id = b ∧
          ∃ e1, s1.end_time = some e1 ∧ (∃ e2, s2.end_time = some e2) ∧
            0 < s2.start_time - e1 ∧ s2.start_time - e1 < thr := by
  unfold find_fragmented_pairs_with_threshold at h
  rw [List.mem_filterMap] at h
  obtain ⟨s1, hs1mem, hf⟩ := h
  have hs1 : s1 ∈ db.sessions := by
    unfold MergeDB.sortedSessions at hs1mem
    rwa [List.mem_insertionSort] at hs1mem
  rcases hget : db.getSession (s1.id + 1) with _ | s2
  · simp only [hget] at hf
    exact Option.noConfusion hf
  · simp only [hget] at hf
    have hs2mem : s2 ∈ db.sessions := List.mem_of_find?_eq_some hget
    have hs2id : s2.id = s1.id + 1 := by simpa using List.find?_some hget
    rcases he1 : s1.end_time with _ | e1
    · simp only [he1] at hf
      exact Option.noConfusion hf
    · rcases he2 : s2.end_time with _ | e2
      · simp only [he1, he2] at hf
        exact Option.noConfusion hf
      · simp only [he1, he2] at hf
        by_cases hcond : 0 < s2.start_time - e1 ∧ s2.start_time - e1 < thr
        · rw [if_pos hcond] at hf
          have hpair : s1.id = a ∧ s2.id = b := by
            have := Option.some_inj.mp hf
            exact ⟨congrArg Prod.fst this, congrArg Prod.snd this⟩
          refine ⟨by omega, s1, hs1, hpair.1, s2, hs2mem, hpair.2, e1, he1,
            ⟨e2, he2⟩, hcond.1, hcond.2⟩
        · rw [if_neg hcond] at hf
          exact absurd hf (by simp)

/-- Completeness: two stored sessions with consecutive ids, both closed,
whose gap is positive and below the threshold, are found as a pair. -/
theorem pairs_complete (db : MergeDB) (thr : Int) (hnd : NodupIds db)
    (s1 s2 : SessionRow) (h1 : s1 ∈ db.sessions) (h2 : s2 ∈ db.sessions)
    (hid : s2.id = s1.id + 1) (e1 e2 : Int)
    (he1 : s1.end_time = some e1) (he2 : s2.end_time = some e2)
    (hg1 : 0 < s2.start_time - e1) (hg2 : s2.start_time - e1 < thr) :
    (s1.id, s2.id) ∈ find_fragmented_pairs_with_threshold db thr := by
  unfold find_fragmented_pairs_with_threshold
  rw [List.mem_filterMap]
  refine ⟨s1, ?_, ?_⟩
  · unfold MergeDB.sortedSessions
    rw [List.mem_insertionSort]
    exact h1
  · have hfind : db.getSession (s1.id + 1) = some s2 := by
      unfold MergeDB.getSession
      rcases hf : db.sessions.find? (fun s => s.id = s1.id + 1) with _ | s'
      · exfalso
        rw [List.find?_eq_none] at hf
        have := hf s2 h2
        simp only [decide_eq_true_eq] at this
        exact this hid
      · have hs'id : s'.id = s1.id + 1 := by simpa using List.find?_some hf
        have hs'mem := List.mem_of_find?_eq_some hf
        have heq : s' = s2 :=
          List.inj_on_of_nodup_map hnd hs'mem h2 (by rw [hs'id, hid])
        rw [hf, heq]
    simp only [hfind, he1, he2]
    rw [if_pos ⟨hg1, hg2⟩]

theorem filterMap_fst_sublist {α : Type} (f : α → Option (Nat × Nat)) (g : α → Nat)
    (hf : ∀ x p, f x = some p → p.1 = g x) :
    ∀ l : List α, ((l.filterMap f).map Prod.fst).Sublist (l.map g) := by
  intro l
  induction l with
  | nil => simp
  | cons x rest ih =>
    rw [List.filterMap_cons]
    rcases hfx : f x with _ | p
    · rw [List.map_cons]
      exact ih.cons _
    · rw [List.map_cons, List.map_cons, hf x p hfx]
      exact ih.cons₂ _

/-- The first components of the found pairs are strictly increasing: the
query is ordered by `s1.id` and ids are unique. -/
theorem pairs_fst_sorted (db : MergeDB) (thr : Int) (hnd : NodupIds db) :
    List.Sorted (· < ·) ((find_fragmented_pairs_with_threshold db thr).map Prod.fst) := by
  have hsub : ((find_fragmented_pairs_with_threshold db thr).map Prod.fst).Sublist
      (db.sortedSessions.map SessionRow.id) := by
    apply filterMap_fst_sublist
    intro s1 p hp
    rcases hget : db.getSession (s1.id + 1) with _ | s2
    · simp only [hget] at hp
      exact Option.noConfusion hp
    · simp only [hget] at hp
      rcases he1 : s1.end_time with _ | e1
      · simp only [he1] at hp
        exact Option.noConfusion hp
      · rcases he2 : s2.end_time with _ | e2
        · simp only [he1, he2] at hp
          exact Option.noConfusion hp
        · simp only [he1, he2] at hp
          by_cases hcond : 0 < s2.start_time - e1 ∧ s2.start_time - e1 < thr
          · rw [if_pos hcond] at hp
            rw [← Option.some_inj.mp hp]
          · rw [if_neg hcond] at hp
            exact absurd hp (by simp)
  have hsorted : List.Sorted (· ≤ ·) (db.sortedSessions.map SessionRow.id) := by
    have hs := List.sorted_insertionSort (fun a b : SessionRow => a.id ≤ b.id) db.sessions
    exact List.pairwise_map.mpr hs
  have hnodup : (db.sortedSessions.map SessionRow.id).Nodup := by
    have hperm : db.sortedSessions.Perm db.sessions :=
      List.perm_insertionSort _ _
    exact ((hperm.map SessionRow.id).nodup_iff).mpr hnd
  have hlt : List.Sorted (· < ·) (db.sortedSessions.map SessionRow.id) :=
    (List.Pairwise.and hsorted hnodup).imp fun h => lt_of_le_of_ne h.1 h.2
  exact hlt.sublist hsub

/-- Every found pair is `(a, a + 1)`. -/
theorem pairs_consecutive (db : MergeDB) (thr : Int) :
    ∀ p ∈ find_fragmented_pairs_with_threshold db thr, p.2 = p.1 + 1 := by
  rintro ⟨a, b⟩ hp
  exact (pairs_sound db thr a b hp).1

/-- Both endpoints of every found pair have a closed stored session. -/
theorem pairs_endpoints_closed (db : MergeDB) (thr : Int) :
    ∀ p ∈ find_fragmented_pairs_with_threshold db thr,
      hasClosedSession db p.1 ∧ hasClosedSession db p.2 := by
  rintro ⟨a, b⟩ hp
  obtain ⟨-, s1, hs1, hid1, s2, hs2, hid2, e1, he1, ⟨e2, he2⟩, -, -⟩ :=
    pairs_sound db thr a b hp
  exact ⟨⟨s1, hs1, hid1, by rw [he1]; exact fun h => by cases h⟩,
    ⟨s2, hs2, hid2, by rw [he2]; exact fun h => by cases h⟩⟩

/-! ## How `merge_chain` transforms the session table -/

/-- The foreign-key rewrites never touch the session table. -/
theorem foldl_fk_sessions (dels : List Nat) (keep : Nat) :
    ∀ db : MergeDB,
      ((dels.foldl (fun d del => applyFkUpdates d keep del) db)).sessions =
        db.sessions := by
  induction dels with
  | nil => intro db; rfl
  | cons d rest ih =>
    intro db
    rw [List.foldl_cons, ih]
    rfl

/-- Ids are preserved by row updates and only filtered away: the filtered
mapped session table's ids form a sublist of the original ids. -/
theorem filter_map_ids_sublist (l : List SessionRow) (u : SessionRow → SessionRow)
    (p : SessionRow → Bool) (hu : ∀ s, (u s).id = s.id) :
    (((l.map u).filter p).map SessionRow.id).Sublist (l.map SessionRow.id) := by
  have h1 := List.Sublist.map SessionRow.id (List.filter_sublist (p := p) (l.map u))
  rwa [List.map_map, show SessionRow.id ∘ u = SessionRow.id from funext hu] at h1

/-- Session-table facts true of `merge_chain` on any chain (merging or
not): ids only disappear (never appear or change), sessions whose id is
outside the chain are preserved verbatim in both directions, and every
surviving row keeps the id and `start_time` of a stored row. -/
theorem merge_chain_sessions_facts (db : MergeDB) (ch : List Nat) :
    (((merge_chain db ch).sessions.map SessionRow.id).Sublist
      (db.sessions.map SessionRow.id)) ∧
    (∀ s ∈ db.sessions, s.id ∉ ch → s ∈ (merge_chain db ch).sessions) ∧
    (∀ s ∈ (merge_chain db ch).sessions, s.id ∉ ch → s ∈ db.sessions) ∧
    (∀ s ∈ (merge_chain db ch).sessions,
      ∃ t ∈ db.sessions, t.id = s.id ∧ t.start_time = s.start_time) := by
  have htriv : merge_chain db ch = db →
      (((merge_chain db ch).sessions.map SessionRow.id).Sublist
        (db.sessions.map SessionRow.id)) ∧
      (∀ s ∈ db.sessions, s.id ∉ ch → s ∈ (merge_chain db ch).sessions) ∧
      (∀ s ∈ (merge_chain db ch).sessions, s.id ∉ ch → s ∈ db.sessions) ∧
      (∀ s ∈ (merge_chain db ch).sessions,
        ∃ t ∈ db.sessions, t.id = s.id ∧ t.start_time = s.start_time) := by
    intro h
    rw [h]
    exact ⟨List.Sublist.refl _, fun s hs _ => hs, fun s hs _ => hs,
      fun s hs => ⟨s, hs, rfl, rfl⟩⟩
  rcases ch with _ | ⟨keep, dels⟩
  · exact htriv rfl
  rcases dels with _ | ⟨d, ds⟩
  · exact htriv rfl
  rcases hk : db.getSession keep with _ | f
  · refine htriv ?_
    unfold merge_chain
    simp only [hk]
  rcases hl : db.getSession ((keep :: d :: ds).getLastD 0) with _ | l
  · refine htriv ?_
    unfold merge_chain
    simp only [hk, hl]
  rcases hle : l.end_time with _ | e
  · refine htriv ?_
    unfold merge_chain
    simp only [hk, hl, hle]
  have hmc : ∀ P : List SessionRow → Prop,
      (∀ u : SessionRow → SessionRow,
        (∀ s, (u s).id = s.id) → (∀ s, (u s).start_time = s.start_time) →
        (∀ s, s.id ≠ keep → u s = s) →
        P (((db.sessions.map u).filter fun s => ¬ (d :: ds).contains s.id))) →
      P (merge_chain db (keep :: d :: ds)).sessions := by
    intro P hP
    unfold merge_chain
    simp only [hk, hl, hle, foldl_fk_sessions, List.map_map]
    apply hP
    · intro s
      by_cases hid : s.id = keep <;> simp [Function.comp, hid]
    · intro s
      by_cases hid : s.id = keep <;> simp [Function.comp, hid]
    · intro s hid
      simp [Function.comp, hid]
  refine hmc (fun L =>
    ((L.map SessionRow.id).Sublist (db.sessions.map SessionRow.id)) ∧
    (∀ s ∈ db.sessions, s.id ∉ keep :: d :: ds → s ∈ L) ∧
    (∀ s ∈ L, s.id ∉ keep :: d :: ds → s ∈ db.sessions) ∧
    (∀ s ∈ L, ∃ t ∈ db.sessions, t.id = s.id ∧ t.start_time = s.start_time)) ?_
  intro u hid hstart hfix
  refine ⟨?_, ?_, ?_, ?_⟩
  · exact filter_map_ids_sublist _ u _ hid
  · intro s hs hnot
    have hnk : s.id ≠ keep := fun h => hnot (h ▸ List.mem_cons_self _ _)
    rw [List.mem_filter]
    constructor
    · rw [List.mem_map]
      exact ⟨s, hs, hfix s hnk⟩
    · simp only [List.contains, decide_not, Bool.not_eq_true', decide_eq_false_iff_not]
      intro hmem
      exact hnot (List.mem_cons_of_mem _ (List.elem_iff.mp hmem))
  · intro s hs hnot
    rw [List.mem_filter] at hs
    obtain ⟨hmem, -⟩ := hs
    rw [List.mem_map] at hmem
    obtain ⟨t, ht, hts⟩ := hmem
    by_cases htk : t.id = keep
    · exfalso
      apply hnot
      have : s.id = keep := by rw [← hts, hid t, htk]
      exact this ▸ List.mem_cons_self _ _
    · exact (hfix t htk ▸ hts : t = s) ▸ ht
  · intro s hs
    rw [List.mem_filter] at hs
    obtain ⟨hmem, -⟩ := hs
    rw [List.mem_map] at hmem
    obtain ⟨t, ht, hts⟩ := hmem
    exact ⟨t, ht, by rw [← hts, hid t], by rw [← hts, hstart t]⟩

/-- When the guards pass (the chain has at least two ids, its first and
last sessions exist and the last is closed), `merge_chain` deletes every
donor's session row. -/
theorem merge_chain_deletes_donors (db : MergeDB) (keep d : Nat) (ds : List Nat)
    (f l : SessionRow) (e : Int)
    (hk : db.getSession keep = some f)
    (hl : db.getSession ((keep :: d :: ds).getLastD 0) = some l)
    (hle : l.end_time = some e) :
    ∀ s ∈ (merge_chain db (keep :: d :: ds)).sessions, s.id ∉ (d :: ds) := by
  intro s hs
  unfold merge_chain at hs
  simp only [hk, hl, hle, foldl_fk_sessions, List.map_map] at hs
  rw [List.mem_filter] at hs
  have h2 := hs.2
  simp only [List.contains, decide_not, Bool.not_eq_true',
    decide_eq_false_iff_not] at h2
  intro hmem
  exact h2 (List.elem_iff.mpr hmem)

/-- A closed session id is found by `getSession`, and (ids being unique)
the found row is closed. -/
theorem getSession_of_closed (db : MergeDB) (hnd : NodupIds db) (x : Nat)
    (h : hasClosedSession db x) :
    ∃ row, db.getSession x = some row ∧ row ∈ db.sessions ∧ row.id = x ∧
      row.end_time ≠ none := by
  obtain ⟨s, hs, hid, hend⟩ := h
  rcases hf : db.getSession x with _ | r
  · exfalso
    unfold MergeDB.getSession at hf
    rw [List.find?_eq_none] at hf
    have := hf s hs
    simp only [decide_eq_true_eq] at this
    exact this hid
  · have hf' : db.sessions.find? (fun s => s.id = x) = some r := hf
    have hrid : r.id = x := by simpa using List.find?_some hf'
    have hrmem : r ∈ db.sessions := List.mem_of_find?_eq_some hf'
    have hrs : r = s := List.inj_on_of_nodup_map hnd hrmem hs (by rw [hrid, hid])
    exact ⟨r, rfl, hrmem, hrid, hrs ▸ hend⟩

theorem range'_cons_cons (a k : Nat) :
    List.range' a (k + 2) = a :: (a + 1) :: List.range' (a + 2) k := by
  rw [List.range'_succ, List.range'_succ]

/-- The combined effect of merging a list of pairwise-disjoint run chains
whose members are all closed stored sessions: ids only disappear, sessions
outside every chain are untouched in both directions, surviving rows keep a
stored row's id and start time, and every donor (non-head chain member) has
no session row afterwards. -/
theorem foldl_merge_facts :
    ∀ (cs : List (List Nat)) (db : MergeDB),
      (∀ c ∈ cs, IsRun c) →
      List.Pairwise (fun c d => ∀ x ∈ c, ∀ y ∈ d, x < y) cs →
      (∀ c ∈ cs, ∀ x ∈ c, hasClosedSession db x) →
      NodupIds db →
      ((cs.foldl merge_chain db).sessions.map SessionRow.id).Sublist
        (db.sessions.map SessionRow.id) ∧
      (∀ s ∈ db.sessions, (∀ c ∈ cs, s.id ∉ c) →
        s ∈ (cs.foldl merge_chain db).sessions) ∧
      (∀ s ∈ (cs.foldl merge_chain db).sessions, (∀ c ∈ cs, s.id ∉ c) →
        s ∈ db.sessions) ∧
      (∀ s ∈ (cs.foldl merge_chain db).sessions,
        ∃ t ∈ db.sessions, t.id = s.id ∧ t.start_time = s.start_time) ∧
      (∀ c ∈ cs, ∀ x ∈ c, x ≠ c.headD 0 →
        ∀ s ∈ (cs.foldl merge_chain db).sessions, s.id ≠ x) := by
  intro cs
  induction cs with
  | nil =>
    intro db _ _ _ _
    exact ⟨List.Sublist.refl _, fun s hs _ => hs, fun s hs _ => hs,
      fun s hs => ⟨s, hs, rfl, rfl⟩,
      fun c hc => absurd hc (List.not_mem_nil c)⟩
  | cons c rest ih =>
    intro db hruns hpw hclosed hnd
    obtain ⟨a, k, hc1⟩ := hruns c (List.mem_cons_self _ _)
    subst hc1
    have hc2 := range'_cons_cons a k
    have hmemA : a ∈ List.range' a (k + 2) :=
      List.mem_range'_1.mpr ⟨le_refl a, by omega⟩
    have hmemL : a + k + 1 ∈ List.range' a (k + 2) :=
      List.mem_range'_1.mpr ⟨by omega, by omega⟩
    obtain ⟨f, hkf, -, -, -⟩ := getSession_of_closed db hnd a
      (hclosed _ (List.mem_cons_self _ _) a hmemA)
    obtain ⟨l, hlf, -, -, hlend⟩ := getSession_of_closed db hnd (a + k + 1)
      (hclosed _ (List.mem_cons_self _ _) (a + k + 1) hmemL)
    obtain ⟨e, hle⟩ := Option.ne_none_iff_exists'.mp hlend
    rw [List.foldl_cons]
    obtain ⟨f1, f2, f3, f4⟩ := merge_chain_sessions_facts db (List.range' a (k + 2))
    have hgetlast : db.getSession
        ((a :: (a + 1) :: List.range' (a + 2) k).getLastD 0) = some l := by
      rw [← hc2, getLastD_range' a (k + 1)]
      exact hlf
    have hdel : ∀ s ∈ (merge_chain db (List.range' a (k + 2))).sessions,
        s.id ∉ ((a + 1) :: List.range' (a + 2) k) := by
      intro s hs
      have := merge_chain_deletes_donors db a (a + 1) (List.range' (a + 2) k)
        f l e hkf hgetlast hle
      rw [← hc2] at this
      exact this s hs
    have hdbnd : NodupIds (merge_chain db (List.range' a (k + 2))) :=
      List.Nodup.sublist f1 hnd
    have hclosed' : ∀ c' ∈ rest, ∀ x ∈ c',
        hasClosedSession (merge_chain db (List.range' a (k + 2))) x := by
      intro c' hc' x hx
      obtain ⟨s, hs, hid, hend⟩ := hclosed c' (List.mem_cons_of_mem _ hc') x hx
      have hxnot : s.id ∉ List.range' a (k + 2) := by
        intro hmem
        have hrel := (List.pairwise_cons.mp hpw).1 c' hc'
        exact absurd (hid ▸ hrel s.id hmem x hx) (lt_irrefl x)
      exact ⟨s, f2 s hs hxnot, hid, hend⟩
    obtain ⟨g1, g2, g3, g4, g5⟩ := ih (merge_chain db (List.range' a (k + 2)))
      (fun c' hc' => hruns c' (List.mem_cons_of_mem _ hc'))
      (List.pairwise_cons.mp hpw).2 hclosed' hdbnd
    refine ⟨g1.trans f1, ?_, ?_, ?_, ?_⟩
    · intro s hs havoid
      exact g2 s (f2 s hs (havoid _ (List.mem_cons_self _ _)))
        fun c' hc' => havoid c' (List.mem_cons_of_mem _ hc')
    · intro s hs havoid
      exact f3 s (g3 s hs fun c' hc' => havoid c' (List.mem_cons_of_mem _ hc'))
        (havoid _ (List.mem_cons_self _ _))
    · intro s hs
      obtain ⟨t, ht, hid, hstart⟩ := g4 s hs
      obtain ⟨t0, ht0, hid0, hstart0⟩ := f4 t ht
      exact ⟨t0, ht0, hid0.trans hid, hstart0.trans hstart⟩
    · intro c' hc' x hx hxhead s hs heq
      rcases List.mem_cons.mp hc' with rfl | hc''
      · have hha : (List.range' a (k + 2)).headD 0 = a := by
          rw [hc2]
          rfl
        have hxtail : x ∈ (a + 1) :: List.range' (a + 2) k := by
          rw [hc2] at hx
          rcases List.mem_cons.mp hx with rfl | h
          · rw [hha] at hxhead
            exact absurd rfl hxhead
          · exact h
        have hsid : s.id ∈
            (rest.foldl merge_chain
              (merge_chain db (List.range' a (k + 2)))).sessions.map SessionRow.id :=
          List.mem_map_of_mem _ hs
        have hsid' : s.id ∈
            (merge_chain db (List.range' a (k + 2))).sessions.map SessionRow.id :=
          g1.subset hsid
        rw [List.mem_map] at hsid'
        obtain ⟨s', hs', heqid⟩ := hsid'
        exact hdel s' hs' (by rw [heqid, heq]; exact hxtail)
      · exact g5 c' hc'' x hx hxhead s hs heq

/-- The gap finder returns no pairs when no stored adjacent-id pair
qualifies. -/
theorem findPairs_eq_nil (db : MergeDB) (thr : Int)
    (h : ∀ s1 ∈ db.sessions, ∀ s2, db.getSession (s1.id + 1) = some s2 →
      ∀ e1, s1.end_time = some e1 → ∀ e2, s2.end_time = some e2 →
      ¬ (0 < s2.start_time - e1 ∧ s2.start_time - e1 < thr)) :
    find_fragmented_pairs_with_threshold db thr = [] := by
  unfold find_fragmented_pairs_with_threshold
  rw [List.filterMap_eq_nil]
  intro s1 hs1mem
  have hs1 : s1 ∈ db.sessions := by
    unfold MergeDB.sortedSessions at hs1mem
    rwa [List.mem_insertionSort] at hs1mem
  rcases hget : db.getSession (s1.id + 1) with _ | s2
  · rfl
  show (match s1.end_time, s2.end_time with
    | some e1, some _ =>
      if 0 < s2.start_time - e1 ∧ s2.start_time - e1 < thr then
        some (s1.id, s2.id)
      else none
    | _, _ => none) = none
  rcases he1 : s1.end_time with _ | e1
  · rfl
  rcases he2 : s2.end_time with _ | e2
  · rfl
  show (if 0 < s2.start_time - e1 ∧ s2.start_time - e1 < thr then
    some (s1.id, s2.id) else none) = none
  rw [if_neg (h s1 hs1 s2 hget e1 he1 e2 he2)]

/-- Two strictly separated chains cannot share an element, so an element
determines its chain. -/
theorem pairwise_sep_unique (l : List (List Nat))
    (hpw : List.Pairwise (fun c d => ∀ x ∈ c, ∀ y ∈ d, x < y) l) :
    ∀ c₁ ∈ l, ∀ c₂ ∈ l, ∀ z : Nat, z ∈ c₁ → z ∈ c₂ → c₁ = c₂ := by
  induction l with
  | nil =>
    intro c₁ h
    exact absurd h (List.not_mem_nil c₁)
  | cons hd t ih =>
    intro c₁ h1 c₂ h2 z hz1 hz2
    obtain ⟨hrel, hpw'⟩ := List.pairwise_cons.mp hpw
    rcases List.mem_cons.mp h1 with he1 | h1'
    · rcases List.mem_cons.mp h2 with he2 | h2'
      · rw [he1, he2]
      · rw [he1] at hz1
        exact absurd (hrel c₂ h2' z hz1 z hz2) (lt_irrefl z)
    · rcases List.mem_cons.mp h2 with he2 | h2'
      · rw [he2] at hz2
        exact absurd (hrel c₁ h1' z hz2 z hz1) (lt_irrefl z)
      · exact ih hpw' c₁ h1' c₂ h2' z hz1 hz2

/-- C6: chain building is transitive: whenever pairs `(a,b)` and `(b,c)`
are both found, one single chain contains `a`, `b` and `c`; that chain is a
consecutive run listed in increasing order whose first element is its
smallest (earliest) session id, it is the only chain containing `a`, and —
the general coverage fact — every qualifying pair's two session ids land in
one common chain, for runs of any length. -/
theorem chain_building_transitive (db : MergeDB) (thr : Int) (hnd : NodupIds db)
    (a b c : Nat)
    (h1 : (a, b) ∈ find_fragmented_pairs_with_threshold db thr)
    (h2 : (b, c) ∈ find_fragmented_pairs_with_threshold db thr) :
    (∀ p ∈ find_fragmented_pairs_with_threshold db thr,
      ∃ ch ∈ build_merge_chains (find_fragmented_pairs_with_threshold db thr),
        p.1 ∈ ch ∧ p.2 ∈ ch) ∧
    ∃ ch ∈ build_merge_chains (find_fragmented_pairs_with_threshold db thr),
      a ∈ ch ∧ b ∈ ch ∧ c ∈ ch ∧
      List.Sorted (· < ·) ch ∧
      (∃ a0 k, ch = List.range' a0 (k + 2)) ∧
      (∀ x ∈ ch, ch.headD 0 ≤ x) ∧
      ∀ ch' ∈ build_merge_chains (find_fragmented_pairs_with_threshold db thr),
        a ∈ ch' → ch' = ch := by
  obtain ⟨hrun, -, hcov, hpw⟩ := build_merge_chains_spec (fun _ => True) _
    (pairs_consecutive db thr) (pairs_fst_sorted db thr hnd)
    (fun p _ => ⟨trivial, trivial⟩)
  refine ⟨hcov, ?_⟩
  obtain ⟨ch1, hch1, ha1, hb1⟩ := hcov (a, b) h1
  obtain ⟨ch2, hch2, hb2, hc2⟩ := hcov (b, c) h2
  have hch12 : ch1 = ch2 := pairwise_sep_unique _ hpw ch1 hch1 ch2 hch2 b hb1 hb2
  obtain ⟨a0, k, hrange⟩ := hrun ch1 hch1
  refine ⟨ch1, hch1, ha1, hb1, hch12 ▸ hc2, ?_, ⟨a0, k, hrange⟩, ?_, ?_⟩
  · rw [hrange]
    exact List.pairwise_lt_range' a0 (k + 2)
  · intro x hx
    rw [hrange] at hx ⊢
    have hax := (List.mem_range'_1.mp hx).1
    rw [range'_cons_cons]
    simpa using hax
  · intro ch' hch' hach'
    exact pairwise_sep_unique _ hpw ch' hch' ch1 hch1 a hach' ha1

/-- C7: the session repairer is idempotent.  After one find-and-merge pass,
a second pass with the same threshold finds zero qualifying pairs, so it
performs zero merges and leaves the store unchanged. -/
theorem repairer_idempotent (db : MergeDB) (thr : Int) (hnd : NodupIds db) :
    find_fragmented_pairs_with_threshold (run_repair db thr) thr = [] ∧
      run_repair (run_repair db thr) thr = run_repair db thr := by
  have hcons := pairs_consecutive db thr
  have hsorted := pairs_fst_sorted db thr hnd
  have hSend := pairs_endpoints_closed db thr
  obtain ⟨hrun, hSmem, hcov, hpw⟩ :=
    build_merge_chains_spec (hasClosedSession db) _ hcons hsorted hSend
  obtain ⟨g1, g2, g3, g4, g5⟩ := foldl_merge_facts
    (build_merge_chains (find_fragmented_pairs_with_threshold db thr)) db
    hrun hpw hSmem hnd
  have hF : run_repair db thr =
      (build_merge_chains (find_fragmented_pairs_with_threshold db thr)).foldl
        merge_chain db := rfl
  have hmain : find_fragmented_pairs_with_threshold (run_repair db thr) thr = [] := by
    apply findPairs_eq_nil
    intro s1 hs1 s2 hget e1 he1 e2 he2
    rw [hF] at hs1 hget
    rintro ⟨hq1, hq2⟩
    have hget' : ((build_merge_chains
        (find_fragmented_pairs_with_threshold db thr)).foldl
          merge_chain db).sessions.find? (fun s => s.id = s1.id + 1) = some s2 := hget
    have hs2F : s2 ∈ ((build_merge_chains
        (find_fragmented_pairs_with_threshold db thr)).foldl merge_chain db).sessions :=
      List.mem_of_find?_eq_some hget'
    have hs2id : s2.id = s1.id + 1 := by simpa using List.find?_some hget'
    by_cases hs1in : ∃ c ∈ build_merge_chains
        (find_fragmented_pairs_with_threshold db thr), s1.id ∈ c
    · obtain ⟨c, hcmem, hs1c⟩ := hs1in
      obtain ⟨a0, k0, hcr⟩ := hrun c hcmem
      have hs1head : s1.id = c.headD 0 := by
        by_contra hne
        exact g5 c hcmem s1.id hs1c hne s1 hs1 rfl
      have hhead : c.headD 0 = a0 := by
        rw [hcr, range'_cons_cons]
        rfl
      have hdonor : a0 + 1 ∈ c := by
        rw [hcr]
        exact List.mem_range'_1.mpr ⟨by omega, by omega⟩
      have hdonorne : a0 + 1 ≠ c.headD 0 := by
        rw [hhead]
        omega
      apply g5 c hcmem (a0 + 1) hdonor hdonorne s2 hs2F
      rw [hs2id, hs1head, hhead]
    · push_neg at hs1in
      have hs1db : s1 ∈ db.sessions := g3 s1 hs1 hs1in
      obtain ⟨t2, ht2, ht2id, ht2start⟩ := g4 s2 hs2F
      have ht2end : ∃ e2', t2.end_time = some e2' := by
        by_cases hs2in : ∃ c ∈ build_merge_chains
            (find_fragmented_pairs_with_threshold db thr), s2.id ∈ c
        · obtain ⟨c, hcmem, hs2c⟩ := hs2in
          obtain ⟨u, hu, huid, huend⟩ := hSmem c hcmem s2.id hs2c
          have hut2 : u = t2 :=
            List.inj_on_of_nodup_map hnd hu ht2 (by rw [huid, ht2id])
          exact hut2 ▸ Option.ne_none_iff_exists'.mp huend
        · push_neg at hs2in
          have hs2db : s2 ∈ db.sessions := g3 s2 hs2F hs2in
          have hst2 : s2 = t2 :=
            List.inj_on_of_nodup_map hnd hs2db ht2 ht2id.symm
          exact ⟨e2, hst2 ▸ he2⟩
      obtain ⟨e2', he2'⟩ := ht2end
      have hpmem := pairs_complete db thr hnd s1 t2 hs1db ht2
        (by rw [ht2id, hs2id]) e1 e2' he1 he2'
        (by rw [ht2start]; exact hq1) (by rw [ht2start]; exact hq2)
      obtain ⟨cc, hccmem, hs1cc, -⟩ := hcov (s1.id, t2.id) hpmem
      exact hs1in cc hccmem hs1cc
  refine ⟨hmain, ?_⟩
  have hsecond : run_repair (run_repair db thr) thr =
      (build_merge_chains (find_fragmented_pairs_with_threshold
        (run_repair db thr) thr)).foldl merge_chain (run_repair db thr) := rfl
  rw [hsecond, hmain]
  rfl

/-- C6 witness: on three concrete fragmented sessions the pairs `(1,2)` and
`(2,3)` land in one chain `[1,2,3]` headed by the earliest id. -/
theorem chain_building_transitive_witness :
    (∀ p ∈ find_fragmented_pairs_with_threshold threeFragmentsDB 60,
      ∃ ch ∈ build_merge_chains (find_fragmented_pairs_with_threshold threeFragmentsDB 60),
        p.1 ∈ ch ∧ p.2 ∈ ch) ∧
    ∃ ch ∈ build_merge_chains (find_fragmented_pairs_with_threshold threeFragmentsDB 60),
      1 ∈ ch ∧ 2 ∈ ch ∧ 3 ∈ ch ∧
      List.Sorted (· < ·) ch ∧
      (∃ a0 k, ch = List.range' a0 (k + 2)) ∧
      (∀ x ∈ ch, ch.headD 0 ≤ x) ∧
      ∀ ch' ∈ build_merge_chains (find_fragmented_pairs_with_threshold threeFragmentsDB 60),
        1 ∈ ch' → ch' = ch :=
  chain_building_transitive threeFragmentsDB 60 (by decide) 1 2 3
    (by decide) (by decide)

/-- C7 witness: repairing three concrete fragmented sessions twice finds
nothing and changes nothing on the second pass. -/
theorem repairer_idempotent_witness :
    find_fragmented_pairs_with_threshold (run_repair threeFragmentsDB 60) 60 = [] ∧
      run_repair (run_repair threeFragmentsDB 60) 60 = run_repair threeFragmentsDB 60 :=
  repairer_idempotent threeFragmentsDB 60 (by decide)

/-! ## Screenshot-count arithmetic for the three-session merge -/

/-- Filtering by session id counts ids. -/
theorem filter_length_eq_countP_map (l : List ScreenshotLink) (c : Nat) :
    (l.filter fun r => r.session_id = c).length =
      ((l.map ScreenshotLink.session_id).countP fun x => x = c) := by
  rw [← List.countP_eq_length_filter, List.countP_map]
  rfl

theorem reassign_map_ids (l : List ScreenshotLink) (del keep : Nat) :
    (reassignScreens l del keep).map ScreenshotLink.session_id =
      (l.map ScreenshotLink.session_id).map fun x => if x = del then keep else x := by
  unfold reassignScreens
  rw [List.map_map, List.map_map]
  apply List.map_congr_left
  intro r _
  by_cases h : r.session_id = del <;> simp [Function.comp, h]

theorem countP_if_absorb (xs : List Nat) (del keep : Nat) (hne : del ≠ keep) :
    ((xs.map fun x => if x = del then keep else x).countP fun x => x = keep) =
      (xs.countP fun x => x = keep) + (xs.countP fun x => x = del) := by
  induction xs with
  | nil => rfl
  | cons x rest ih =>
    rw [List.map_cons, List.countP_cons, List.countP_cons, List.countP_cons]
    by_cases h : x = del
    · rw [if_pos h]
      rw [if_pos (by simp : decide (keep = keep) = true)]
      rw [if_neg (show ¬ decide (x = keep) = true by
        simp only [decide_eq_true_eq]; omega)]
      rw [if_pos (by simp [h] : decide (x = del) = true)]
      rw [ih]
      omega
    · rw [if_neg h]
      by_cases h2 : x = keep
      · rw [if_pos (by simp [h2] : decide (x = keep) = true),
          if_neg (show ¬ decide (x = del) = true by simpa using h), ih]
        omega
      · rw [if_neg (show ¬ decide (x = keep) = true by simpa using h2),
          if_neg (show ¬ decide (x = del) = true by simpa using h), ih]
        omega

theorem countP_if_other (xs : List Nat) (del keep c : Nat)
    (h1 : c ≠ del) (h2 : c ≠ keep) :
    ((xs.map fun x => if x = del then keep else x).countP fun x => x = c) =
      xs.countP fun x => x = c := by
  induction xs with
  | nil => rfl
  | cons x rest ih =>
    rw [List.map_cons, List.countP_cons, List.countP_cons]
    by_cases h : x = del
    · rw [if_pos h]
      rw [if_neg (show ¬ decide (keep = c) = true by
        simp only [decide_eq_true_eq]; omega)]
      rw [if_neg (show ¬ decide (x = c) = true by
        simp only [decide_eq_true_eq]; omega)]
      rw [ih]
    · rw [if_neg h]
      by_cases hc : x = c
      · rw [if_pos (by simp [hc] : decide (x = c) = true), ih]
      · rw [if_neg (show ¬ decide (x = c) = true by simpa using hc), ih]
theorem reassign_count_absorb (l : List ScreenshotLink) (del keep : Nat)
    (hne : del ≠ keep) :
    ((reassignScreens l del keep).filter fun r => r.session_id = keep).length =
      (l.filter fun r => r.session_id = keep).length +
        (l.filter fun r => r.session_id = del).length := by
  rw [filter_length_eq_countP_map, reassign_map_ids, countP_if_absorb _ _ _ hne,
    ← filter_length_eq_countP_map, ← filter_length_eq_countP_map]

theorem reassign_count_other (l : List ScreenshotLink) (del keep c : Nat)
    (h1 : c ≠ del) (h2 : c ≠ keep) :
    ((reassignScreens l del keep).filter fun r => r.session_id = c).length =
      (l.filter fun r => r.session_id = c).length := by
  rw [filter_length_eq_countP_map, reassign_map_ids, countP_if_other _ _ _ _ h1 h2,
    ← filter_length_eq_countP_map]
/-- C5: merging a chain of three adjacent closed sessions `A`, `B`, `C`
(consecutive ids, each gap positive and under the restart threshold, stored
screenshot counts accurate) leaves exactly one surviving session: it keeps
`A`'s id and `start_time`, takes `C`'s `end_time`, and its recomputed
`screenshot_count` is the sum of the three original counts; the rows of `B`
and `C` are deleted. -/
theorem merge_three_adjacent (A B C : SessionRow) (n : Nat) (thr : Int)
    (eav ebv ecv : Int)
    (shots : List ScreenshotLink) (fs : List FocusRow) (os : List OcrRow)
    (hAid : A.id = n) (hBid : B.id = n + 1) (hCid : C.id = n + 2)
    (hAend : A.end_time = some eav) (hBend : B.end_time = some ebv)
    (hCend : C.end_time = some ecv)
    (hgap1 : 0 < B.start_time - eav) (hgap2 : B.start_time - eav < thr)
    (hgap3 : 0 < C.start_time - ebv) (hgap4 : C.start_time - ebv < thr)
    (hcA : A.screenshot_count = (shots.filter fun r => r.session_id = n).length)
    (hcB : B.screenshot_count = (shots.filter fun r => r.session_id = n + 1).length)
    (hcC : C.screenshot_count = (shots.filter fun r => r.session_id = n + 2).length) :
    ∃ uw,
      (run_repair ⟨[A, B, C], shots, fs, os⟩ thr).sessions =
        [{ A with
            end_time := C.end_time,
            duration_seconds := some (ecv - A.start_time),
            screenshot_count :=
              A.screenshot_count + B.screenshot_count + C.screenshot_count,
            unique_windows := uw }] ∧
      ∀ s ∈ (run_repair ⟨[A, B, C], shots, fs, os⟩ thr).sessions,
        s.id ≠ B.id ∧ s.id ≠ C.id := by
  have hfA : (⟨[A, B, C], shots, fs, os⟩ : MergeDB).getSession n = some A := by
    show List.find? (fun s => s.id = n) [A, B, C] = some A
    rw [List.find?_cons_of_pos _ (by simp [hAid])]
  have hfB : (⟨[A, B, C], shots, fs, os⟩ : MergeDB).getSession (n + 1) = some B := by
    show List.find? (fun s => s.id = n + 1) [A, B, C] = some B
    rw [List.find?_cons_of_neg _ (by simp only [hAid, decide_eq_true_eq]; omega),
      List.find?_cons_of_pos _ (by simp [hBid])]
  have hfC : (⟨[A, B, C], shots, fs, os⟩ : MergeDB).getSession (n + 2) = some C := by
    show List.find? (fun s => s.id = n + 2) [A, B, C] = some C
    rw [List.find?_cons_of_neg _ (by simp only [hAid, decide_eq_true_eq]; omega),
      List.find?_cons_of_neg _ (by simp only [hBid, decide_eq_true_eq]; omega),
      List.find?_cons_of_pos _ (by simp [hCid])]
  have hfnone : (⟨[A, B, C], shots, fs, os⟩ : MergeDB).getSession (n + 3) = none := by
    show List.find? (fun s => s.id = n + 3) [A, B, C] = none
    rw [List.find?_eq_none]
    intro x hx
    rcases List.mem_cons.mp hx with h | hx
    · rw [h]
      simp only [hAid, decide_eq_true_eq]
      omega
    rcases List.mem_cons.mp hx with h | hx
    · rw [h]
      simp only [hBid, decide_eq_true_eq]
      omega
    rcases List.mem_cons.mp hx with h | hx
    · rw [h]
      simp only [hCid, decide_eq_true_eq]
      omega
    · exact absurd hx (List.not_mem_nil x)
  have hsort : (⟨[A, B, C], shots, fs, os⟩ : MergeDB).sortedSessions = [A, B, C] := by
    apply List.Sorted.insertionSort_eq
    simp only [List.sorted_cons, List.mem_cons, List.mem_singleton]
    refine ⟨?_, ?_, ?_⟩
    · rintro b (rfl | rfl | h)
      · rw [hAid, hBid]; omega
      · rw [hAid, hCid]; omega
      · exact absurd h (List.not_mem_nil b)
    · rintro b (rfl | h)
      · rw [hBid, hCid]; omega
      · exact absurd h (List.not_mem_nil b)
    · simp
  have hpairs : find_fragmented_pairs_with_threshold ⟨[A, B, C], shots, fs, os⟩ thr =
      [(n, n + 1), (n + 1, n + 2)] := by
    unfold find_fragmented_pairs_with_threshold
    rw [hsort, List.filterMap_cons, List.filterMap_cons, List.filterMap_cons,
      List.filterMap_nil]
    simp only [hAid, hBid, hCid, hfB, hfC, hfnone, hAend, hBend, hCend]
    rw [if_pos ⟨hgap1, hgap2⟩, if_pos ⟨hgap3, hgap4⟩]
  have hchains : build_merge_chains [(n, n + 1), (n + 1, n + 2)] = [[n, n + 1, n + 2]] := by
    show (if n + 1 = [n, n + 1].getLastD 0 then bmcLoop [] [] ([n, n + 1] ++ [n + 2])
      else bmcLoop [] ([] ++ [[n, n + 1]]) [n + 1, n + 2]) = [[n, n + 1, n + 2]]
    rw [if_pos (show n + 1 = [n, n + 1].getLastD 0 from rfl)]
    rfl
  have hrepair : run_repair ⟨[A, B, C], shots, fs, os⟩ thr =
      merge_chain ⟨[A, B, C], shots, fs, os⟩ [n, n + 1, n + 2] := by
    show (build_merge_chains (find_fragmented_pairs_with_threshold
      ⟨[A, B, C], shots, fs, os⟩ thr)).foldl merge_chain ⟨[A, B, C], shots, fs, os⟩ =
      merge_chain ⟨[A, B, C], shots, fs, os⟩ [n, n + 1, n + 2]
    rw [hpairs, hchains]
    rfl
  rw [hrepair]
  have hfC2 : (⟨[A, B, C], shots, fs, os⟩ : MergeDB).getSession
      ([n, n + 1, n + 2].getLastD 0) = some C := hfC
  unfold merge_chain
  simp only [hfA, hfC2, hCend]
  have hSC : (List.filter (fun r => decide (r.session_id = n))
      (List.foldl (fun d del => applyFkUpdates d n del)
        (⟨[A, B, C], shots, fs, os⟩ : MergeDB) [n + 1, n + 2]).screenshots).length =
      A.screenshot_count + B.screenshot_count + C.screenshot_count := by
    show ((reassignScreens (reassignScreens shots (n + 1) n) (n + 2) n).filter
      fun r => r.session_id = n).length = _
    rw [reassign_count_absorb _ _ _ (by omega),
      reassign_count_absorb _ _ _ (by omega),
      reassign_count_other _ _ _ _ (by omega) (by omega)]
    rw [hcA, hcB, hcC]
  rw [hSC, foldl_fk_sessions]
  have hne1 : ¬ (n + 1 = n) := by omega
  have hne2 : ¬ (n + 2 = n) := by omega
  simp only [List.map_cons, List.map_nil, hAid, hBid, hCid, eq_self_iff_true,
    if_true, hne1, hne2, if_false]
  have hcont1 : ([n + 1, n + 2] : List Nat).contains n = false := by
    rcases h : ([n + 1, n + 2] : List Nat).contains n
    · rfl
    · have hmem : n ∈ [n + 1, n + 2] := List.elem_iff.mp h
      rcases List.mem_cons.mp hmem with h1 | h2
      · omega
      rcases List.mem_cons.mp h2 with h3 | h4
      · omega
      · exact absurd h4 (List.not_mem_nil n)
  have hcont2 : ([n + 1, n + 2] : List Nat).contains (n + 1) = true :=
    List.elem_iff.mpr (by simp)
  have hcont3 : ([n + 1, n + 2] : List Nat).contains (n + 2) = true :=
    List.elem_iff.mpr (by simp)
  simp only [List.filter_cons, List.filter_nil, hBid, hCid, hcont1, hcont2, hcont3,
    Bool.false_eq_true, Bool.true_eq_false, not_false_eq_true, not_true_eq_false,
    decide_True, decide_False, if_true, if_false]
  refine ⟨_, rfl, ?_⟩
  intro s hs
  rw [List.mem_singleton.mp hs]
  constructor
  · show ¬ (n = n + 1)
    omega
  · show ¬ (n = n + 2)
    omega

/-- C5 witness: three concrete fragmented sessions (ids 1–3, gaps 10 s and
30 s, counts 2/1/2) merge into one session spanning 0–300 with 5
screenshots. -/
theorem merge_three_adjacent_witness :
    ∃ uw,
      (run_repair ⟨[mkClosed 1 0 100 2 1, mkClosed 2 110 200 1 1,
          mkClosed 3 230 300 2 1],
        [⟨10, 1⟩, ⟨11, 1⟩, ⟨12, 2⟩, ⟨13, 3⟩, ⟨14, 3⟩],
        [⟨some "w", 1⟩], []⟩ 60).sessions =
        [{ mkClosed 1 0 100 2 1 with
            end_time := (mkClosed 3 230 300 2 1).end_time,
            duration_seconds := some (300 - (mkClosed 1 0 100 2 1).start_time),
            screenshot_count :=
              (mkClosed 1 0 100 2 1).screenshot_count +
                (mkClosed 2 110 200 1 1).screenshot_count +
                (mkClosed 3 230 300 2 1).screenshot_count,
            unique_windows := uw }] ∧
      ∀ s ∈ (run_repair ⟨[mkClosed 1 0 100 2 1, mkClosed 2 110 200 1 1,
          mkClosed 3 230 300 2 1],
        [⟨10, 1⟩, ⟨11, 1⟩, ⟨12, 2⟩, ⟨13, 3⟩, ⟨14, 3⟩],
        [⟨some "w", 1⟩], []⟩ 60).sessions,
        s.id ≠ (mkClosed 2 110 200 1 1).id ∧ s.id ≠ (mkClosed 3 230 300 2 1).id :=
  merge_three_adjacent (mkClosed 1 0 100 2 1) (mkClosed 2 110 200 1 1)
    (mkClosed 3 230 300 2 1) 1 60 100 200 300
    [⟨10, 1⟩, ⟨11, 1⟩, ⟨12, 2⟩, ⟨13, 3⟩, ⟨14, 3⟩] [⟨some "w", 1⟩] []
    (by decide) (by decide) (by decide) (by decide) (by decide) (by decide)
    (by decide) (by decide) (by decide) (by decide) (by decide) (by decide)
    (by decide)

end Traq
